import Mathlib

/-
Verification of the DPLL SAT solver in `src/sat.rs` (snsinfu/dpll-sat).

The Rust source is shallowly embedded below.  Imperative while-loops are
translated as structural recursion on an explicit fuel argument that is
exactly the loop's termination measure at the call site; theorems below
prove the supplied fuel is never exhausted.  Partial operations of the
source (unchecked vector indexing, which panics in Rust when out of
bounds) are modelled by returning `Option.none`; theorems below show the
`none` branches are unreachable under the documented input invariants.
-/

namespace DpllSat

/-- A literal in a clause (`Literal` in sat.rs): a positive or negated
zero-based variable index. -/
inductive Literal where
  | Var : Nat → Literal
  | Not : Nat → Literal
deriving DecidableEq, Repr, Inhabited

/-- A clause in a CNF formula: the OR-sum of the contained literals. -/
abbrev Clause := List Literal

/-- CNF formula: the AND-product of the contained clauses. -/
abbrev Formula := List Clause

/-- Variable assignment: the i-th element is the truth value of variable i. -/
abbrev Assignment := List Bool

/-- The variable index carried by a literal. -/
def litVar : Literal → Nat
  | .Var i => i
  | .Not i => i

/-- The literal made true by assigning `truth` to `var`
(`truthy_lit` in `simplify`). -/
def truthyLit (var : Nat) (truth : Bool) : Literal :=
  if truth then .Var var else .Not var

/-- The literal made false by assigning `truth` to `var`
(`falsey_lit` in `simplify`). -/
def falseyLit (var : Nat) (truth : Bool) : Literal :=
  if truth then .Not var else .Var var

/-- Swap-and-truncate removal used by `simplify`: swap the element at
position `i` with the last element, then pop the last element. -/
def swapPop (l : List α) (i : Nat) (dflt : α) : List α :=
  (l.set i (l.getD (l.length - 1) dflt)).dropLast

/-- The inner while-loop of `simplify`: strips every occurrence of the
falsified literal from one clause, in place, by swap-and-pop.  The fuel
equals the loop measure `clause.length - literal_index`. -/
def stripLoop (falsey : Literal) : Nat → Clause → Nat → Clause
  | 0, clause, _ => clause
  | fuel + 1, clause, i =>
    if h : i < clause.length then
      if clause[i] = falsey then
        stripLoop falsey fuel (swapPop clause i (.Var 0)) i
      else
        stripLoop falsey fuel clause (i + 1)
    else
      clause

/-- The outer while-loop of `simplify`: removes every clause containing
the satisfied literal and strips the falsified literal from the rest. -/
def simplifyLoop (truthy falsey : Literal) : Nat → Formula → Nat → Formula
  | 0, formula, _ => formula
  | fuel + 1, formula, ci =>
    if h : ci < formula.length then
      if truthy ∈ formula[ci] then
        simplifyLoop truthy falsey fuel (swapPop formula ci []) ci
      else
        simplifyLoop truthy falsey fuel
          (formula.set ci (stripLoop falsey (formula[ci]).length (formula[ci]) 0))
          (ci + 1)
    else
      formula

/-- `simplify(formula, var, truth)` from sat.rs: removes clauses made true
by the assignment `var := truth` and strips literals made false by it. -/
def simplify (formula : Formula) (var : Nat) (truth : Bool) : Formula :=
  simplifyLoop (truthyLit var truth) (falseyLit var truth)
    formula.length formula 0

/-- The variable and truth value implied by a unit clause (the
`let (var, truth) = match clause[0]` step of `unit_propagate`). -/
def unitAssign (clause : Clause) : Nat × Bool :=
  match clause.getD 0 (.Var 0) with
  | .Var i => (i, true)
  | .Not i => (i, false)

/-- `unit_propagate(formula, vars)` from sat.rs: repeatedly resolves the
first unit clause until none remains.  The write `vars[var] = truth` is
modelled with an explicit bounds check (`none` = the Rust panic); the
fuel covers the loop iterations (each one removes at least one clause). -/
def unit_propagate : Nat → Formula → Assignment → Option (Formula × Assignment)
  | 0, _, _ => none
  | fuel + 1, formula, vars =>
    match formula.find? (fun clause => clause.length == 1) with
    | none => some (formula, vars)
    | some clause =>
      if (unitAssign clause).1 < vars.length then
        unit_propagate fuel (simplify formula (unitAssign clause).1 (unitAssign clause).2)
          (vars.set (unitAssign clause).1 (unitAssign clause).2)
      else
        none

/-- The frequency-counting pass of `find_dominant_variable`:
`freqs[i] += 1` for each literal, with the vector indexing modelled by an
explicit bounds check (`none` = the Rust panic). -/
def countFreqs (formula : Formula) (n_vars : Nat) : Option (List Nat) :=
  formula.foldlM
    (fun freqs clause =>
      clause.foldlM
        (fun freqs lit =>
          if h : litVar lit < freqs.length then
            some (freqs.set (litVar lit) (freqs[litVar lit] + 1))
          else
            none)
        freqs)
    (List.replicate n_vars 0)

/-- The argmax scan of `find_dominant_variable`: left-to-right, strict
`>` comparison, state `(i, max, argmax)` starting from `(0, 0, 0)`. -/
def scanMax : List Nat → Nat → Nat → Nat → Nat
  | [], _, _, argmax => argmax
  | freq :: rest, i, max, argmax =>
    if freq > max then
      scanMax rest (i + 1) freq i
    else
      scanMax rest (i + 1) max argmax

/-- `find_dominant_variable(formula, n_vars)` from sat.rs: the most used
variable in a formula. -/
def find_dominant_variable (formula : Formula) (n_vars : Nat) : Option Nat :=
  (countFreqs formula n_vars).map (fun freqs => scanMax freqs 0 0 0)

/-- The variable-count scan at the top of `check_sat`: one more than the
maximum index referenced by any literal, 0 for the empty formula. -/
def n_vars (formula : Formula) : Nat :=
  formula.foldl
    (fun n clause =>
      clause.foldl (fun n lit => if litVar lit ≥ n then litVar lit + 1 else n) n)
    0

/-- `dpll(formula, vars)` from sat.rs: propagate, test the two terminal
conditions, else branch on the dominant variable, trying true first.  The
fuel bounds the recursion depth (spent one unit per recursive call);
`none` models a Rust panic or fuel exhaustion, and is proved unreachable
for the fuel used by `check_sat`. -/
def dpll : Nat → Formula → Assignment → Option (Bool × Assignment)
  | 0, _, _ => none
  | fuel + 1, formula, vars =>
    match unit_propagate (formula.length + 1) formula vars with
    | none => none
    | some (formula₁, vars₁) =>
      if formula₁.isEmpty then
        some (true, vars₁)
      else if formula₁.any (fun clause => clause.isEmpty) then
        some (false, vars₁)
      else
        match find_dominant_variable formula₁ vars₁.length with
        | none => none
        | some var =>
          match dpll fuel (formula₁ ++ [[.Var var]]) vars₁ with
          | none => none
          | some (true, vars₂) => some (true, vars₂)
          | some (false, vars₂) => dpll fuel (formula₁ ++ [[.Not var]]) vars₂

/-- `check_sat(formula)` from sat.rs: computes the variable count,
allocates the all-false assignment and runs `dpll`.  The outer `Option`
layer models panics/exhaustion (proved unreachable below); the inner
`Option Assignment` is the solver's verdict. -/
def check_sat (formula : Formula) : Option (Option Assignment) :=
  let n := n_vars formula
  match dpll (2 * n + 2) formula (List.replicate n false) with
  | none => none
  | some (true, vars) => some (some vars)
  | some (false, _) => some none

/-- Truth value of a literal under an assignment (out-of-range variables
read as the buffer default `false`). -/
def evalLit (vars : Assignment) : Literal → Bool
  | .Var i => vars.getD i false
  | .Not i => !(vars.getD i false)

/-- A clause is satisfied when at least one literal is true. -/
def evalClause (vars : Assignment) (clause : Clause) : Bool :=
  clause.any (evalLit vars)

/-- A formula is satisfied when every clause is satisfied. -/
def evalFormula (vars : Assignment) (formula : Formula) : Bool :=
  formula.all (evalClause vars)

/-- All variable indices occurring in a formula, with multiplicity. -/
def idxsList (formula : Formula) : List Nat :=
  formula.flatMap (fun clause => clause.map litVar)

/-- A formula viewed as a multiset of clauses, each viewed as a multiset
of literals (the order-insensitive reading used by the specification). -/
def canon (formula : Formula) : Multiset (Multiset Literal) :=
  Multiset.ofList (formula.map (fun clause => Multiset.ofList clause))

/-- Modelled from the spec (§4.2): the simplifier's postcondition, stated
directly on multisets — drop every clause containing the now-true literal,
strip every occurrence of the now-false literal from the rest. -/
def specSimplify (var : Nat) (truth : Bool) (m : Multiset (Multiset Literal)) :
    Multiset (Multiset Literal) :=
  (m.filter (fun clause => truthyLit var truth ∉ clause)).map
    (fun clause => clause.filter (fun lit => lit ≠ falseyLit var truth))

/-- A formula viewed as a multiset of clauses, each viewed as a finite set
of literals (the reading that ignores duplicate literals). -/
def canonSet (formula : Formula) : Multiset (Finset Literal) :=
  Multiset.ofList (formula.map (fun clause => clause.toFinset))

theorem swapPop_length (l : List α) (i : Nat) (d : α) :
    (swapPop l i d).length = l.length - 1 := by
  simp [swapPop]

theorem swapPop_decomp (l : List α) (i : Nat) (d : α) (h : i < l.length) :
    ∃ X : List α, swapPop l i d = l.take i ++ X ∧
      (↑(l.drop i) : Multiset α) = l[i] ::ₘ (↑X : Multiset α) := by
  have hlen : l.length - 1 < l.length := by omega
  have hlast : l.getD (l.length - 1) d = l[l.length - 1] := l.getD_eq_getElem d hlen
  have hset : l.set i (l.getD (l.length - 1) d) =
      l.take i ++ l.getD (l.length - 1) d :: l.drop (i + 1) :=
    List.set_eq_take_cons_drop _ h
  refine ⟨(l.getD (l.length - 1) d :: l.drop (i + 1)).dropLast, ?_, ?_⟩
  · rw [swapPop, hset, List.dropLast_append_cons]
  · have hXeq : (↑(l.drop (i + 1)) : Multiset α) =
        ↑((l.getD (l.length - 1) d :: l.drop (i + 1)).dropLast) := by
      rcases hD : l.drop (i + 1) with _ | ⟨b, D⟩
      · simp
      · have hne : l.drop (i + 1) ≠ [] := by rw [hD]; simp
        have hgl : (l.drop (i + 1)).getLast hne = l[l.length - 1] := by
          rw [List.getLast_drop hne, List.getLast_eq_getElem]
        have hperm : List.Perm (b :: D) (l.getD (l.length - 1) d :: (b :: D).dropLast) := by
          conv_lhs => rw [← hD, ← List.dropLast_append_getLast hne, hgl, ← hlast, hD]
          exact List.perm_append_singleton _ _
        rw [List.dropLast_cons₂]
        exact Multiset.coe_eq_coe.mpr hperm
    rw [List.drop_eq_getElem_cons h, ← Multiset.cons_coe, hXeq]

theorem stripLoop_canon (f : Literal) :
    ∀ (fuel : Nat) (cl : Clause) (i : Nat), cl.length - i ≤ fuel →
      (↑(stripLoop f fuel cl i) : Multiset Literal) =
        ↑(cl.take i) + Multiset.filter (fun l => l ≠ f) ↑(cl.drop i) := by
  intro fuel
  induction fuel with
  | zero =>
    intro cl i hf
    have hle : cl.length ≤ i := by omega
    rw [stripLoop, List.take_of_length_le hle, List.drop_eq_nil_of_le hle]
    simp
  | succ fuel ih =>
    intro cl i hf
    rw [stripLoop]
    split
    · next h =>
      split
      · next heq =>
        have hlen : (swapPop cl i (Literal.Var 0)).length = cl.length - 1 :=
          swapPop_length cl i _
        have hrec := ih (swapPop cl i (Literal.Var 0)) i (by omega)
        rw [hrec]
        obtain ⟨X, hX1, hX2⟩ := swapPop_decomp cl i (Literal.Var 0) h
        have htake : (swapPop cl i (Literal.Var 0)).take i = cl.take i := by
          rw [hX1]
          exact List.take_left' (by simp [List.length_take]; omega)
        have hdrop : (swapPop cl i (Literal.Var 0)).drop i = X := by
          rw [hX1]
          exact List.drop_left' (by simp [List.length_take]; omega)
        rw [htake, hdrop, hX2]
        rw [Multiset.filter_cons_of_neg _ (by simp [heq])]
      · next hne =>
        have hrec := ih cl (i + 1) (by omega)
        rw [hrec]
        rw [List.drop_eq_getElem_cons h, ← Multiset.cons_coe,
          Multiset.filter_cons_of_pos _ (by exact hne)]
        rw [List.take_succ, List.getElem?_eq_getElem h, Option.toList_some,
          ← Multiset.coe_add, add_assoc, Multiset.coe_singleton, Multiset.singleton_add]
    · next h =>
      have hle : cl.length ≤ i := by omega
      rw [List.take_of_length_le hle, List.drop_eq_nil_of_le hle]
      simp

theorem canon_nil : canon [] = 0 := rfl

theorem canon_cons (cl : Clause) (F : Formula) : canon (cl :: F) = ↑cl ::ₘ canon F := rfl

theorem canon_append (F G : Formula) : canon (F ++ G) = canon F + canon G := by
  rw [canon, canon, canon, List.map_append, ← Multiset.coe_add]

theorem canon_perm {F G : Formula} (h : List.Perm F G) : canon F = canon G :=
  Multiset.coe_eq_coe.mpr (h.map _)

theorem canon_card (F : Formula) : Multiset.card (canon F) = F.length := by
  simp [canon]



theorem simplifyLoop_canon (t f : Literal) :
    ∀ (fuel : Nat) (F : Formula) (ci : Nat), F.length - ci ≤ fuel →
      canon (simplifyLoop t f fuel F ci) =
        canon (F.take ci) +
          (Multiset.filter (fun cl => t ∉ cl) (canon (F.drop ci))).map
            (fun cl => Multiset.filter (fun l => l ≠ f) cl) := by
  intro fuel
  induction fuel with
  | zero =>
    intro F ci hf
    have hle : F.length ≤ ci := by omega
    rw [simplifyLoop, List.take_of_length_le hle, List.drop_eq_nil_of_le hle]
    simp [canon_nil]
  | succ fuel ih =>
    intro F ci hf
    rw [simplifyLoop]
    split
    · next h =>
      split
      · next hmem =>
        have hlen : (swapPop F ci ([] : Clause)).length = F.length - 1 :=
          swapPop_length F ci _
        have hrec := ih (swapPop F ci []) ci (by omega)
        rw [hrec]
        obtain ⟨X, hX1, hX2⟩ := swapPop_decomp F ci ([] : Clause) h
        have htake : (swapPop F ci ([] : Clause)).take ci = F.take ci := by
          rw [hX1]
          exact List.take_left' (by simp [List.length_take]; omega)
        have hdrop : (swapPop F ci ([] : Clause)).drop ci = X := by
          rw [hX1]
          exact List.drop_left' (by simp [List.length_take]; omega)
        have hcd : canon (F.drop ci) = Multiset.ofList F[ci] ::ₘ canon X := by
          rw [Multiset.cons_coe] at hX2
          have hperm : List.Perm (F.drop ci) (F[ci] :: X) := Multiset.coe_eq_coe.mp hX2
          rw [canon_perm hperm, canon_cons]
        rw [htake, hdrop, hcd,
          Multiset.filter_cons_of_neg _ (by rw [Multiset.mem_coe]; exact fun hn => hn hmem)]
      · next hne =>
        have hset : F.set ci (stripLoop f (F[ci]).length (F[ci]) 0) =
            F.take ci ++ stripLoop f (F[ci]).length (F[ci]) 0 :: F.drop (ci + 1) :=
          List.set_eq_take_cons_drop _ h
        have hassoc : F.set ci (stripLoop f (F[ci]).length (F[ci]) 0) =
            (F.take ci ++ [stripLoop f (F[ci]).length (F[ci]) 0]) ++ F.drop (ci + 1) := by
          rw [hset]; simp
        have hlen1 : (F.take ci ++ [stripLoop f (F[ci]).length (F[ci]) 0]).length = ci + 1 := by
          simp [List.length_take]; omega
        have hrec := ih (F.set ci (stripLoop f (F[ci]).length (F[ci]) 0))
          (ci + 1) (by rw [List.length_set]; omega)
        rw [hrec]
        have htake : (F.set ci (stripLoop f (F[ci]).length (F[ci]) 0)).take (ci + 1)
            = F.take ci ++ [stripLoop f (F[ci]).length (F[ci]) 0] := by
          rw [hassoc]; exact List.take_left' hlen1
        have hdrop : (F.set ci (stripLoop f (F[ci]).length (F[ci]) 0)).drop (ci + 1)
            = F.drop (ci + 1) := by
          rw [hassoc]; exact List.drop_left' hlen1
        have hstrip : Multiset.ofList (stripLoop f (F[ci]).length (F[ci]) 0)
            = Multiset.filter (fun l => l ≠ f) (Multiset.ofList F[ci]) := by
          rw [stripLoop_canon f (F[ci]).length (F[ci]) 0 (by omega)]
          simp
        have hcd : canon (F.drop ci) = Multiset.ofList F[ci] ::ₘ canon (F.drop (ci + 1)) := by
          have hd : F.drop ci = F[ci] :: F.drop (ci + 1) := List.drop_eq_getElem_cons h
          rw [hd, canon_cons]
        rw [htake, hdrop, hcd,
          Multiset.filter_cons_of_pos _ (by rw [Multiset.mem_coe]; exact hne),
          Multiset.map_cons, canon_append, canon_cons, canon_nil, hstrip, add_assoc,
          Multiset.cons_zero, Multiset.singleton_add]
    · next h =>
      have hle : F.length ≤ ci := by omega
      rw [List.take_of_length_le hle, List.drop_eq_nil_of_le hle]
      simp [canon_nil]

theorem simplify_canon (F : Formula) (v : Nat) (t : Bool) :
    canon (simplify F v t) = specSimplify v t (canon F) := by
  rw [simplify, specSimplify, simplifyLoop_canon _ _ F.length F 0 (by omega)]
  simp [canon_nil]



theorem mem_canon {F : Formula} {m : Multiset Literal} :
    m ∈ canon F ↔ ∃ cl ∈ F, Multiset.ofList cl = m := by
  simp [canon, Multiset.mem_coe, List.mem_map]

theorem litVar_eq_iff {l : Literal} {v : Nat} {t : Bool} :
    litVar l = v ↔ (l = truthyLit v t ∨ l = falseyLit v t) := by
  cases l <;> cases t <;> simp [litVar, truthyLit, falseyLit]

theorem mem_simplify {F : Formula} {v : Nat} {t : Bool} {cl' : Clause}
    (h : cl' ∈ simplify F v t) :
    ∃ cl ∈ F, truthyLit v t ∉ cl ∧
      Multiset.ofList cl' =
        Multiset.filter (fun l => l ≠ falseyLit v t) (Multiset.ofList cl) := by
  have hm : Multiset.ofList cl' ∈ canon (simplify F v t) := mem_canon.mpr ⟨cl', h, rfl⟩
  rw [simplify_canon, specSimplify] at hm
  obtain ⟨m, hmf, hmap⟩ := Multiset.mem_map.mp hm
  obtain ⟨hmF, hpt⟩ := Multiset.mem_filter.mp hmf
  obtain ⟨cl, hclF, hcoe⟩ := mem_canon.mp hmF
  refine ⟨cl, hclF, ?_, ?_⟩
  · intro hmem
    exact hpt (by rw [← hcoe]; exact Multiset.mem_coe.mpr hmem)
  · rw [← hmap, ← hcoe]

theorem simplify_mem_of {F : Formula} {v : Nat} {t : Bool} {cl : Clause}
    (hclF : cl ∈ F) (hne : truthyLit v t ∉ cl) :
    ∃ cl' ∈ simplify F v t,
      Multiset.ofList cl' =
        Multiset.filter (fun l => l ≠ falseyLit v t) (Multiset.ofList cl) := by
  have hm : Multiset.filter (fun l => l ≠ falseyLit v t) (Multiset.ofList cl) ∈
      canon (simplify F v t) := by
    rw [simplify_canon, specSimplify]
    refine Multiset.mem_map.mpr ⟨Multiset.ofList cl, Multiset.mem_filter.mpr ⟨?_, ?_⟩, rfl⟩
    · exact mem_canon.mpr ⟨cl, hclF, rfl⟩
    · exact fun hmem => hne (Multiset.mem_coe.mp hmem)
  obtain ⟨cl', hcl', hcoe⟩ := mem_canon.mp hm
  exact ⟨cl', hcl', hcoe⟩

theorem mem_idxsList {F : Formula} {w : Nat} :
    w ∈ idxsList F ↔ ∃ cl ∈ F, ∃ l ∈ cl, litVar l = w := by
  simp [idxsList, List.mem_flatMap, List.mem_map]

theorem idxsList_simplify_subset {F : Formula} {v : Nat} {t : Bool} {w : Nat}
    (h : w ∈ idxsList (simplify F v t)) : w ∈ idxsList F := by
  obtain ⟨cl', hcl', l, hl, hlv⟩ := mem_idxsList.mp h
  obtain ⟨cl, hclF, _, hcoe⟩ := mem_simplify hcl'
  have hlm : l ∈ Multiset.ofList cl' := Multiset.mem_coe.mpr hl
  rw [hcoe] at hlm
  have hlcl : l ∈ cl := Multiset.mem_coe.mp (Multiset.mem_of_mem_filter hlm)
  exact mem_idxsList.mpr ⟨cl, hclF, l, hlcl, hlv⟩

theorem var_not_mem_idxsList_simplify {F : Formula} {v : Nat} {t : Bool} :
    v ∉ idxsList (simplify F v t) := by
  intro h
  obtain ⟨cl', hcl', l, hl, hlv⟩ := mem_idxsList.mp h
  obtain ⟨cl, hclF, htr, hcoe⟩ := mem_simplify hcl'
  have hlm : l ∈ Multiset.ofList cl' := Multiset.mem_coe.mpr hl
  rw [hcoe] at hlm
  have hlf : l ≠ falseyLit v t := (Multiset.mem_filter.mp hlm).2
  have hlcl : l ∈ cl := Multiset.mem_coe.mp (Multiset.mem_of_mem_filter hlm)
  rcases (litVar_eq_iff (t := t)).mp hlv with hT | hF
  · exact htr (hT ▸ hlcl)
  · exact hlf hF

theorem simplify_length_le (F : Formula) (v : Nat) (t : Bool) :
    (simplify F v t).length ≤ F.length := by
  rw [← canon_card, ← canon_card, simplify_canon, specSimplify, Multiset.card_map]
  exact Multiset.card_le_card (Multiset.filter_le _ _)

theorem simplify_length_lt {F : Formula} {v : Nat} {t : Bool} {cl : Clause}
    (hclF : cl ∈ F) (hmem : truthyLit v t ∈ cl) :
    (simplify F v t).length < F.length := by
  rw [← canon_card, ← canon_card, simplify_canon, specSimplify, Multiset.card_map]
  have hsplit := Multiset.filter_add_not (fun cl => truthyLit v t ∉ cl) (canon F)
  have hcard : Multiset.card (Multiset.filter (fun cl => truthyLit v t ∉ cl) (canon F)) +
      Multiset.card (Multiset.filter (fun cl => ¬truthyLit v t ∉ cl) (canon F)) =
      Multiset.card (canon F) := by
    rw [← Multiset.card_add, hsplit]
  have hpos : 0 < Multiset.card
      (Multiset.filter (fun cl => ¬truthyLit v t ∉ cl) (canon F)) := by
    rw [Multiset.card_pos_iff_exists_mem]
    exact ⟨Multiset.ofList cl, Multiset.mem_filter.mpr
      ⟨mem_canon.mpr ⟨cl, hclF, rfl⟩, fun hn => hn (Multiset.mem_coe.mpr hmem)⟩⟩
  omega

theorem nil_mem_simplify {F : Formula} {v : Nat} {t : Bool} (h : ([] : Clause) ∈ F) :
    ([] : Clause) ∈ simplify F v t := by
  obtain ⟨cl', hcl', hcoe⟩ := simplify_mem_of (v := v) (t := t) h (by simp)
  have hz : Multiset.ofList cl' = 0 := by rw [hcoe]; rfl
  rwa [(Multiset.coe_eq_zero cl').mp hz] at hcl'

theorem simplify_sound {A : Assignment} {F : Formula} {v : Nat} {t : Bool}
    (ht : evalLit A (truthyLit v t) = true)
    (h : evalFormula A (simplify F v t) = true) : evalFormula A F = true := by
  rw [evalFormula, List.all_eq_true] at h ⊢
  intro cl hcl
  by_cases hm : truthyLit v t ∈ cl
  · rw [evalClause, List.any_eq_true]
    exact ⟨_, hm, ht⟩
  · obtain ⟨cl', hcl', hcoe⟩ := simplify_mem_of hcl hm
    have hc := h cl' hcl'
    rw [evalClause, List.any_eq_true] at hc
    obtain ⟨l, hl, hev⟩ := hc
    have hlm : l ∈ Multiset.ofList cl' := Multiset.mem_coe.mpr hl
    rw [hcoe] at hlm
    have hlcl : l ∈ cl := Multiset.mem_coe.mp (Multiset.mem_of_mem_filter hlm)
    rw [evalClause, List.any_eq_true]
    exact ⟨l, hlcl, hev⟩

theorem truthyLit_unitAssign (l : Literal) :
    truthyLit (unitAssign [l]).1 (unitAssign [l]).2 = l := by
  cases l <;> rfl

theorem unitAssign_fst (l : Literal) : (unitAssign [l]).1 = litVar l := by
  cases l <;> rfl

theorem unit_clause_data {F : Formula} {clause : Clause}
    (h : F.find? (fun cl => cl.length == 1) = some clause) :
    clause ∈ F ∧ ∃ l, clause = [l] := by
  refine ⟨List.mem_of_find?_eq_some h, ?_⟩
  have hp := List.find?_some h
  simp only [beq_iff_eq] at hp
  exact List.length_eq_one.mp hp

theorem getD_set_ne (A : List α) (i w : Nat) (x d : α) (h : i ≠ w) :
    (A.set i x).getD w d = A.getD w d := by
  rw [List.getD_eq_getElem?_getD, List.getD_eq_getElem?_getD, List.getElem?_set_ne h]

theorem getD_set_self {A : List α} {i : Nat} (x d : α) (h : i < A.length) :
    (A.set i x).getD i d = x := by
  rw [List.getD_eq_getElem?_getD, List.getElem?_set_self h]
  rfl

theorem unit_propagate_some {fuel : Nat} {F : Formula} {A : Assignment}
    {F' : Formula} {A' : Assignment}
    (h : unit_propagate fuel F A = some (F', A')) :
    (∀ w, w ∈ idxsList F' → w ∈ idxsList F) ∧ A'.length = A.length ∧
    F'.find? (fun cl => cl.length == 1) = none ∧
    (∀ w, w ∉ idxsList F → A'.getD w false = A.getD w false) ∧
    (([] : Clause) ∈ F → ([] : Clause) ∈ F') := by
  induction fuel generalizing F A with
  | zero => simp [unit_propagate] at h
  | succ fuel ih =>
    rw [unit_propagate] at h
    split at h
    · next heq =>
      simp only [Option.some.injEq, Prod.mk.injEq] at h
      obtain ⟨rfl, rfl⟩ := h
      exact ⟨fun w hw => hw, rfl, heq, fun w _ => rfl, fun he => he⟩
    · next clause heq =>
      split at h
      · next hlt =>
        obtain ⟨hclF, l, rfl⟩ := unit_clause_data heq
        have hrec := ih h
        obtain ⟨h1, h2, h3, h4, h5⟩ := hrec
        have hvF : (unitAssign [l]).1 ∈ idxsList F := by
          rw [unitAssign_fst]
          exact mem_idxsList.mpr ⟨[l], hclF, l, by simp, rfl⟩
        refine ⟨?_, ?_, h3, ?_, ?_⟩
        · exact fun w hw => idxsList_simplify_subset (h1 w hw)
        · rw [h2, List.length_set]
        · intro w hw
          have hw1 : w ∉ idxsList (simplify F (unitAssign [l]).1 (unitAssign [l]).2) :=
            fun hc => hw (idxsList_simplify_subset hc)
          rw [h4 w hw1, getD_set_ne _ _ _ _ _ (fun he => hw (by rw [← he]; exact hvF))]
        · exact fun he => h5 (nil_mem_simplify he)
      · exact absurd h (by simp)



theorem evalLit_truthy (A : Assignment) (v : Nat) (t : Bool) :
    evalLit A (truthyLit v t) = (A.getD v false == t) := by
  cases t <;> simp [evalLit, truthyLit]

theorem unit_propagate_sound {fuel : Nat} {F : Formula} {A : Assignment}
    {F' : Formula} {A' : Assignment}
    (h : unit_propagate fuel F A = some (F', A')) :
    ∀ B : Assignment, evalFormula B F' = true →
      (∀ w, w ∉ idxsList F' → B.getD w false = A'.getD w false) →
      evalFormula B F = true := by
  induction fuel generalizing F A with
  | zero => simp [unit_propagate] at h
  | succ fuel ih =>
    rw [unit_propagate] at h
    split at h
    · next heq =>
      simp only [Option.some.injEq, Prod.mk.injEq] at h
      obtain ⟨rfl, rfl⟩ := h
      exact fun B hev _ => hev
    · next clause heq =>
      split at h
      · next hlt =>
        obtain ⟨hclF, l, rfl⟩ := unit_clause_data heq
        intro B hev hag
        have hevF1 := ih h B hev hag
        have hsub := (unit_propagate_some h).1
        have hfr := (unit_propagate_some h).2.2.2.1
        have hvnot : (unitAssign [l]).1 ∉
            idxsList (simplify F (unitAssign [l]).1 (unitAssign [l]).2) :=
          var_not_mem_idxsList_simplify
        have hvnotF' : (unitAssign [l]).1 ∉ idxsList F' :=
          fun hc => hvnot (hsub _ hc)
        have hBv : B.getD (unitAssign [l]).1 false = (unitAssign [l]).2 := by
          rw [hag _ hvnotF', hfr _ hvnot, getD_set_self _ _ hlt]
        have ht : evalLit B (truthyLit (unitAssign [l]).1 (unitAssign [l]).2) = true := by
          rw [evalLit_truthy, hBv]
          simp
        exact simplify_sound ht hevF1
      · exact absurd h (by simp)

theorem unit_propagate_total {fuel : Nat} {F : Formula} {A : Assignment}
    (hidx : ∀ i ∈ idxsList F, i < A.length) (hfuel : F.length < fuel) :
    ∃ F' A', unit_propagate fuel F A = some (F', A') := by
  induction fuel generalizing F A with
  | zero => omega
  | succ fuel ih =>
    rcases heq : F.find? (fun cl => cl.length == 1) with _ | clause
    · rw [unit_propagate]
      simp only [heq]
      exact ⟨F, A, rfl⟩
    · obtain ⟨hclF, l, rfl⟩ := unit_clause_data heq
      have hvF : (unitAssign [l]).1 ∈ idxsList F := by
        rw [unitAssign_fst]
        exact mem_idxsList.mpr ⟨[l], hclF, l, by simp, rfl⟩
      have hlt : (unitAssign [l]).1 < A.length := hidx _ hvF
      have hmem : truthyLit (unitAssign [l]).1 (unitAssign [l]).2 ∈ [l] := by
        rw [truthyLit_unitAssign]; simp
      have hlen : (simplify F (unitAssign [l]).1 (unitAssign [l]).2).length < F.length :=
        simplify_length_lt hclF hmem
      obtain ⟨F', A', hFA⟩ := ih
        (F := simplify F (unitAssign [l]).1 (unitAssign [l]).2)
        (A := A.set (unitAssign [l]).1 (unitAssign [l]).2)
        (fun i hi => by
          rw [List.length_set]
          exact hidx i (idxsList_simplify_subset hi))
        (by omega)
      refine ⟨F', A', ?_⟩
      rw [unit_propagate]
      simp only [heq]
      rw [if_pos hlt]
      exact hFA

theorem unit_propagate_card_lt {fuel : Nat} {F : Formula} {A : Assignment}
    {F' : Formula} {A' : Assignment}
    (hU : F.find? (fun cl => cl.length == 1) ≠ none)
    (h : unit_propagate fuel F A = some (F', A')) :
    (idxsList F').toFinset.card < (idxsList F).toFinset.card := by
  cases fuel with
  | zero => simp [unit_propagate] at h
  | succ fuel =>
    rw [unit_propagate] at h
    split at h
    · next heq => exact absurd heq hU
    · next clause heq =>
      split at h
      · next hlt =>
        obtain ⟨hclF, l, rfl⟩ := unit_clause_data heq
        have hsub := (unit_propagate_some h).1
        have hvF : (unitAssign [l]).1 ∈ idxsList F := by
          rw [unitAssign_fst]
          exact mem_idxsList.mpr ⟨[l], hclF, l, by simp, rfl⟩
        have hvnot : (unitAssign [l]).1 ∉
            idxsList (simplify F (unitAssign [l]).1 (unitAssign [l]).2) :=
          var_not_mem_idxsList_simplify
        apply Finset.card_lt_card
        rw [Finset.ssubset_def]
        constructor
        · intro w hw
          rw [List.mem_toFinset] at hw ⊢
          exact idxsList_simplify_subset (hsub w hw)
        · intro hcon
          have hmemc := hcon (List.mem_toFinset.mpr hvF)
          rw [List.mem_toFinset] at hmemc
          exact hvnot (hsub _ hmemc)
      · exact absurd h (by simp)



theorem freq_foldlM_some {ls : List Literal} {fs fs' : List Nat}
    (h : ls.foldlM
      (fun freqs lit =>
        if h : litVar lit < freqs.length then
          some (freqs.set (litVar lit) (freqs[litVar lit] + 1))
        else
          none) fs = some fs') :
    fs'.length = fs.length ∧ (∀ l ∈ ls, litVar l < fs.length) ∧
    ∀ w, fs'.getD w 0 = fs.getD w 0 + (ls.map litVar).count w := by
  induction ls generalizing fs with
  | nil =>
    simp only [List.foldlM_nil, Option.pure_def, Option.some.injEq] at h
    subst h
    exact ⟨rfl, by simp, by simp⟩
  | cons l ls ih =>
    rw [List.foldlM_cons] at h
    split at h
    · next hlt =>
      obtain ⟨h1, h2, h3⟩ := ih h
      refine ⟨by rw [h1, List.length_set], ?_, ?_⟩
      · intro l' hl'
        rcases hl' with _ | hl'
        · exact hlt
        · have := h2 l' (by assumption)
          rwa [List.length_set] at this
      · intro w
        rw [h3 w, List.map_cons, List.count_cons]
        by_cases hw : litVar l = w
        · subst hw
          rw [getD_set_self _ _ hlt, List.getD_eq_getElem _ _ hlt]
          simp
          omega
        · rw [getD_set_ne _ _ _ _ _ hw]
          simp [hw]
    · simp at h

theorem freq_foldlM_total {ls : List Literal} {fs : List Nat}
    (hidx : ∀ l ∈ ls, litVar l < fs.length) :
    ∃ fs', ls.foldlM
      (fun freqs lit =>
        if h : litVar lit < freqs.length then
          some (freqs.set (litVar lit) (freqs[litVar lit] + 1))
        else
          none) fs = some fs' := by
  induction ls generalizing fs with
  | nil => exact ⟨fs, rfl⟩
  | cons l ls ih =>
    have hlt : litVar l < fs.length := hidx l (by simp)
    have hpre : ∀ l' ∈ ls, litVar l' < (fs.set (litVar l) (fs[litVar l] + 1)).length := by
      intro l' hl'
      rw [List.length_set]
      exact hidx l' (by simp [hl'])
    obtain ⟨fs', hfs'⟩ := ih hpre
    refine ⟨fs', ?_⟩
    rw [List.foldlM_cons]
    rw [dif_pos hlt]
    simpa using hfs'

theorem countFreqs_some {F : Formula} {n : Nat} {fs : List Nat}
    (h : countFreqs F n = some fs) :
    fs.length = n ∧ (∀ i ∈ idxsList F, i < n) ∧
    ∀ w, fs.getD w 0 = (idxsList F).count w := by
  rw [countFreqs] at h
  suffices hgen : ∀ (G : Formula) (fs₀ fs' : List Nat),
      G.foldlM
        (fun freqs clause =>
          clause.foldlM
            (fun freqs lit =>
              if h : litVar lit < freqs.length then
                some (freqs.set (litVar lit) (freqs[litVar lit] + 1))
              else
                none) freqs) fs₀ = some fs' →
      fs'.length = fs₀.length ∧ (∀ i ∈ idxsList G, i < fs₀.length) ∧
      ∀ w, fs'.getD w 0 = fs₀.getD w 0 + (idxsList G).count w by
    obtain ⟨h1, h2, h3⟩ := hgen F (List.replicate n 0) fs h
    rw [List.length_replicate] at h1 h2
    refine ⟨h1, h2, fun w => ?_⟩
    rw [h3 w]
    by_cases hw : w < n
    · rw [List.getD_eq_getElem _ _ (by simpa using hw), List.getElem_replicate]
      omega
    · rw [List.getD_eq_default _ _ (by simpa using not_lt.mp hw)]
      omega
  intro G
  induction G with
  | nil =>
    intro fs₀ fs' h
    simp only [List.foldlM_nil, Option.pure_def, Option.some.injEq] at h
    subst h
    exact ⟨rfl, by simp [idxsList], by simp [idxsList]⟩
  | cons cl G ih =>
    intro fs₀ fs' h
    rw [List.foldlM_cons] at h
    rcases hstep : cl.foldlM
        (fun freqs lit =>
          if h : litVar lit < freqs.length then
            some (freqs.set (litVar lit) (freqs[litVar lit] + 1))
          else
            none) fs₀ with _ | fs₁
    · rw [hstep] at h; simp at h
    · rw [hstep] at h
      obtain ⟨g1, g2, g3⟩ := freq_foldlM_some hstep
      obtain ⟨h1, h2, h3⟩ := ih fs₁ fs' h
      have hidx : idxsList (cl :: G) = cl.map litVar ++ idxsList G := by
        simp [idxsList]
      refine ⟨by rw [h1, g1], ?_, ?_⟩
      · intro i hi
        rw [hidx, List.mem_append] at hi
        rcases hi with hi | hi
        · obtain ⟨l, hl, rfl⟩ := List.mem_map.mp hi
          exact g2 l hl
        · have := h2 i hi
          rwa [g1] at this
      · intro w
        rw [h3 w, g3 w, hidx, List.count_append]
        omega

theorem countFreqs_total {F : Formula} {n : Nat}
    (hidx : ∀ i ∈ idxsList F, i < n) :
    ∃ fs, countFreqs F n = some fs := by
  rw [countFreqs]
  suffices hgen : ∀ (G : Formula) (fs₀ : List Nat),
      (∀ i ∈ idxsList G, i < fs₀.length) →
      ∃ fs', G.foldlM
        (fun freqs clause =>
          clause.foldlM
            (fun freqs lit =>
              if h : litVar lit < freqs.length then
                some (freqs.set (litVar lit) (freqs[litVar lit] + 1))
              else
                none) freqs) fs₀ = some fs' by
    exact hgen F (List.replicate n 0) (by simpa using hidx)
  intro G
  induction G with
  | nil => exact fun fs₀ _ => ⟨fs₀, rfl⟩
  | cons cl G ih =>
    intro fs₀ h0
    have hidxc : idxsList (cl :: G) = cl.map litVar ++ idxsList G := by
      simp [idxsList]
    rw [hidxc] at h0
    have hpre : ∀ l ∈ cl, litVar l < fs₀.length :=
      fun l hl => h0 _ (List.mem_append.mpr (Or.inl (List.mem_map.mpr ⟨l, hl, rfl⟩)))
    obtain ⟨fs₁, hfs₁⟩ := freq_foldlM_total hpre
    obtain ⟨g1, g2, g3⟩ := freq_foldlM_some hfs₁
    obtain ⟨fs', hfs'⟩ := ih fs₁ (fun i hi => by
      rw [g1]
      exact h0 i (List.mem_append.mpr (Or.inr hi)))
    refine ⟨fs', ?_⟩
    rw [List.foldlM_cons, hfs₁]
    simpa using hfs'



theorem scanMax_spec :
    ∀ (l : List Nat) (i m a : Nat),
      (scanMax l i m a = a ∧ ∀ x ∈ l, x ≤ m) ∨
      (∃ j, ∃ hj : j < l.length, scanMax l i m a = i + j ∧ m < l[j] ∧
        (∀ x ∈ l, x ≤ l[j]) ∧ (∀ k, (hk : k < l.length) → k < j → l[k] < l[j])) := by
  intro l
  induction l with
  | nil =>
    intro i m a
    left
    exact ⟨rfl, by simp⟩
  | cons x rest ih =>
    intro i m a
    rw [scanMax]
    by_cases hx : x > m
    · rw [if_pos hx]
      rcases ih (i + 1) x i with ⟨h1, h2⟩ | ⟨j, hj, h1, h2, h3, h4⟩
      · right
        refine ⟨0, by simp, by simpa using h1, by simpa using hx, ?_, by omega⟩
        intro y hy
        rw [List.getElem_cons_zero]
        rcases hy with _ | hy
        · exact le_refl x
        · exact h2 y (by assumption)
      · right
        refine ⟨j + 1, by simpa using hj, ?_, ?_, ?_, ?_⟩
        · rw [h1]; omega
        · rw [List.getElem_cons_succ]; omega
        · intro y hy
          rw [List.getElem_cons_succ]
          rcases hy with _ | hy
          · omega
          · exact h3 y (by assumption)
        · intro k hk hkj
          cases k with
          | zero => rw [List.getElem_cons_zero, List.getElem_cons_succ]; omega
          | succ k =>
            rw [List.getElem_cons_succ, List.getElem_cons_succ]
            exact h4 k (by simpa using hk) (by omega)
    · rw [if_neg hx]
      rcases ih (i + 1) m a with ⟨h1, h2⟩ | ⟨j, hj, h1, h2, h3, h4⟩
      · left
        refine ⟨h1, ?_⟩
        intro y hy
        rcases hy with _ | hy
        · omega
        · exact h2 y (by assumption)
      · right
        refine ⟨j + 1, by simpa using hj, ?_, ?_, ?_, ?_⟩
        · rw [h1]; omega
        · rw [List.getElem_cons_succ]; omega
        · intro y hy
          rw [List.getElem_cons_succ]
          rcases hy with _ | hy
          · omega
          · exact h3 y (by assumption)
        · intro k hk hkj
          cases k with
          | zero => rw [List.getElem_cons_zero, List.getElem_cons_succ]; omega
          | succ k =>
            rw [List.getElem_cons_succ, List.getElem_cons_succ]
            exact h4 k (by simpa using hk) (by omega)

theorem find_dominant_variable_some {F : Formula} {n : Nat} {v : Nat}
    (h : find_dominant_variable F n = some v) :
    (∀ i ∈ idxsList F, i < n) ∧
    (∀ w, (idxsList F).count w ≤ (idxsList F).count v) ∧
    (∀ w, w < v → (idxsList F).count w < (idxsList F).count v) ∧
    (0 < n → v < n) ∧
    (idxsList F ≠ [] → v ∈ idxsList F) := by
  rw [find_dominant_variable] at h
  rcases hcf : countFreqs F n with _ | fs
  · rw [hcf] at h; simp at h
  · rw [hcf] at h
    simp only [Option.map_some', Option.some.injEq] at h
    obtain ⟨hlen, hidx, hcount⟩ := countFreqs_some hcf
    have hcnt : ∀ w, (hw : w < n) → fs[w] = (idxsList F).count w := by
      intro w hw
      rw [← hcount w, List.getD_eq_getElem _ _ (by omega)]
    have hzero : ∀ w, n ≤ w → (idxsList F).count w = 0 := by
      intro w hw
      rw [List.count_eq_zero]
      exact fun hc => absurd (hidx w hc) (by omega)
    refine ⟨hidx, ?_, ?_, ?_, ?_⟩ <;>
      rcases scanMax_spec fs 0 0 0 with ⟨h1, h2⟩ | ⟨j, hj, h1, h2, h3, h4⟩
    · -- max property, case A: never updated, v = 0, all freqs 0
      intro w
      rw [h1] at h
      subst h
      by_cases hw : w < n
      · have : (idxsList F).count w = 0 := by
          rw [← hcnt w hw]
          exact Nat.le_zero.mp (h2 _ (List.getElem_mem (by omega)))
        omega
      · rw [hzero w (by omega)]
        omega
    · -- max property, case B
      intro w
      rw [h1] at h
      subst h
      rw [Nat.zero_add] at *
      rw [← hcnt j (by omega)]
      by_cases hw : w < n
      · rw [← hcnt w hw]
        exact h3 _ (List.getElem_mem (by omega))
      · rw [hzero w (by omega)]
        omega
    · intro w hw
      rw [h1] at h
      omega
    · intro w hw
      rw [h1] at h
      subst h
      rw [Nat.zero_add] at hw ⊢
      rw [← hcnt j (by omega), ← hcnt w (by omega)]
      exact h4 w (by omega) hw
    · intro hn
      rw [h1] at h
      omega
    · intro hn
      rw [h1] at h
      subst h
      omega
    · intro hne
      rw [h1] at h
      subst h
      obtain ⟨w, hw⟩ := List.exists_mem_of_ne_nil _ hne
      have hwn : w < n := hidx w hw
      have : (idxsList F).count w = 0 := by
        rw [← hcnt w hwn]
        exact Nat.le_zero.mp (h2 _ (List.getElem_mem (by omega)))
      rw [← List.count_pos_iff] at hw
      omega
    · intro hne
      rw [h1] at h
      subst h
      rw [Nat.zero_add]
      obtain ⟨w, hw⟩ := List.exists_mem_of_ne_nil _ hne
      have hwn : w < n := hidx w hw
      rw [← List.count_pos_iff] at hw
      have hle : (idxsList F).count w ≤ (idxsList F).count j := by
        by_cases hwn' : w < n
        · rw [← hcnt w hwn', ← hcnt j (by omega)]
          exact h3 _ (List.getElem_mem (by omega))
        · omega
      rw [← List.count_pos_iff]
      omega

theorem find_dominant_variable_total {F : Formula} {n : Nat}
    (hidx : ∀ i ∈ idxsList F, i < n) :
    ∃ v, find_dominant_variable F n = some v := by
  obtain ⟨fs, hfs⟩ := countFreqs_total hidx
  exact ⟨scanMax fs 0 0 0, by rw [find_dominant_variable, hfs]; rfl⟩

theorem n_vars_spec (F : Formula) : ∀ i ∈ idxsList F, i < n_vars F := by
  have inner : ∀ (cl : Clause) (k : Nat),
      k ≤ cl.foldl (fun n lit => if litVar lit ≥ n then litVar lit + 1 else n) k ∧
      ∀ l ∈ cl, litVar l <
        cl.foldl (fun n lit => if litVar lit ≥ n then litVar lit + 1 else n) k := by
    intro cl
    induction cl with
    | nil => exact fun k => ⟨le_refl k, by simp⟩
    | cons l cl ih =>
      intro k
      rw [List.foldl_cons]
      have hstep : k ≤ (if litVar l ≥ k then litVar l + 1 else k) ∧
          litVar l < (if litVar l ≥ k then litVar l + 1 else k) := by
        split <;> omega
      obtain ⟨hmono, hall⟩ := ih (if litVar l ≥ k then litVar l + 1 else k)
      refine ⟨le_trans hstep.1 hmono, ?_⟩
      intro l' hl'
      rcases hl' with _ | hl'
      · omega
      · exact hall l' (by assumption)
  have outer : ∀ (G : Formula) (k : Nat),
      k ≤ G.foldl (fun n clause => clause.foldl
        (fun n lit => if litVar lit ≥ n then litVar lit + 1 else n) n) k ∧
      ∀ i ∈ idxsList G, i < G.foldl (fun n clause => clause.foldl
        (fun n lit => if litVar lit ≥ n then litVar lit + 1 else n) n) k := by
    intro G
    induction G with
    | nil => exact fun k => ⟨le_refl k, by simp [idxsList]⟩
    | cons cl G ih =>
      intro k
      rw [List.foldl_cons]
      obtain ⟨hm1, ha1⟩ := inner cl k
      obtain ⟨hm2, ha2⟩ := ih (cl.foldl (fun n lit => if litVar lit ≥ n then litVar lit + 1 else n) k)
      refine ⟨le_trans hm1 hm2, ?_⟩
      intro i hi
      have : idxsList (cl :: G) = cl.map litVar ++ idxsList G := by simp [idxsList]
      rw [this, List.mem_append] at hi
      rcases hi with hi | hi
      · obtain ⟨l, hl, rfl⟩ := List.mem_map.mp hi
        exact lt_of_lt_of_le (ha1 l hl) hm2
      · exact ha2 i hi
  exact fun i hi => (outer F 0).2 i hi



theorem idxsList_append (F G : Formula) : idxsList (F ++ G) = idxsList F ++ idxsList G := by
  simp [idxsList]

theorem idxsList_branch (F : Formula) (l : Literal) :
    idxsList (F ++ [[l]]) = idxsList F ++ [litVar l] := by
  simp [idxsList]

theorem idxsList_ne_nil {F : Formula} (hne : ¬F.isEmpty = true)
    (hcl : ¬F.any (fun cl => cl.isEmpty) = true) : idxsList F ≠ [] := by
  rcases F with _ | ⟨cl, rest⟩
  · simp at hne
  · rcases cl with _ | ⟨l, cl⟩
    · simp at hcl
    · simp [idxsList]

theorem branch_var_not_mem {F : Formula} {v w : Nat} (hv : v ∈ idxsList F)
    (hw : w ∉ idxsList F) (l : Literal) (hl : litVar l = v) :
    w ∉ idxsList (F ++ [[l]]) := by
  rw [idxsList_branch, List.mem_append]
  rintro (hc | hc)
  · exact hw hc
  · simp [hl] at hc
    exact hw (hc ▸ hv)

theorem dpll_some {fuel : Nat} {F : Formula} {A : Assignment} {b : Bool} {A' : Assignment}
    (h : dpll fuel F A = some (b, A')) :
    A'.length = A.length ∧ ∀ w, w ∉ idxsList F → A'.getD w false = A.getD w false := by
  induction fuel generalizing F A b A' with
  | zero => simp [dpll] at h
  | succ fuel ih =>
    rw [dpll] at h
    split at h
    · next hU => simp at h
    · next F₁ A₁ hU =>
      obtain ⟨hsub, hlen, hnounit, hagree, hnil⟩ := unit_propagate_some hU
      split at h
      · next hE =>
        simp only [Option.some.injEq, Prod.mk.injEq] at h
        obtain ⟨rfl, rfl⟩ := h
        exact ⟨hlen, fun w hw => hagree w hw⟩
      · split at h
        · next hAny =>
          simp only [Option.some.injEq, Prod.mk.injEq] at h
          obtain ⟨rfl, rfl⟩ := h
          exact ⟨hlen, fun w hw => hagree w hw⟩
        · next hAny =>
          split at h
          · simp at h
          · next v heqv =>
            have hvF₁ : v ∈ idxsList F₁ := by
              next hE _ =>
                exact (find_dominant_variable_some heqv).2.2.2.2
                  (idxsList_ne_nil hE hAny)
            split at h
            · simp at h
            · next A₂ heq1 =>
              simp only [Option.some.injEq, Prod.mk.injEq] at h
              obtain ⟨rfl, rfl⟩ := h
              obtain ⟨hl1, hg1⟩ := ih heq1
              refine ⟨by rw [hl1, hlen], ?_⟩
              intro w hw
              have hw₁ : w ∉ idxsList F₁ := fun hc => hw (hsub w hc)
              rw [hg1 w (branch_var_not_mem hvF₁ hw₁ _ rfl), hagree w hw]
            · next A₂ heq1 =>
              obtain ⟨hl1, hg1⟩ := ih heq1
              obtain ⟨hl2, hg2⟩ := ih h
              refine ⟨by rw [hl2, hl1, hlen], ?_⟩
              intro w hw
              have hw₁ : w ∉ idxsList F₁ := fun hc => hw (hsub w hc)
              rw [hg2 w (branch_var_not_mem hvF₁ hw₁ _ rfl),
                hg1 w (branch_var_not_mem hvF₁ hw₁ _ rfl), hagree w hw]


theorem evalFormula_append_left {B : Assignment} {F G : Formula}
    (h : evalFormula B (F ++ G) = true) : evalFormula B F = true := by
  rw [evalFormula, List.all_append, Bool.and_eq_true] at h
  exact h.1

theorem dpll_sound {fuel : Nat} {F : Formula} {A : Assignment} {A' : Assignment}
    (h : dpll fuel F A = some (true, A')) : evalFormula A' F = true := by
  induction fuel generalizing F A A' with
  | zero => simp [dpll] at h
  | succ fuel ih =>
    rw [dpll] at h
    split at h
    · next hU => simp at h
    · next F₁ A₁ hU =>
      obtain ⟨hsub, hlen, hnounit, hagree, hnil⟩ := unit_propagate_some hU
      split at h
      · next hE =>
        simp only [Option.some.injEq, Prod.mk.injEq] at h
        obtain ⟨-, rfl⟩ := h
        have hF₁nil : F₁ = [] := by simpa using hE
        refine unit_propagate_sound hU A₁ ?_ (fun w _ => rfl)
        rw [hF₁nil]
        rfl
      · split at h
        · next hAny =>
          simp only [Option.some.injEq, Prod.mk.injEq] at h
          exact absurd h.1 (by simp)
        · next hAny =>
          split at h
          · simp at h
          · next v heqv =>
            have hvF₁ : v ∈ idxsList F₁ := by
              next hE _ =>
                exact (find_dominant_variable_some heqv).2.2.2.2
                  (idxsList_ne_nil hE hAny)
            split at h
            · simp at h
            · next A₂ heq1 =>
              simp only [Option.some.injEq, Prod.mk.injEq] at h
              obtain ⟨-, rfl⟩ := h
              have hev₁ : evalFormula A₂ F₁ = true :=
                evalFormula_append_left (ih heq1)
              refine unit_propagate_sound hU A₂ hev₁ ?_
              intro w hw
              exact (dpll_some heq1).2 w (branch_var_not_mem hvF₁ hw _ rfl)
            · next A₂ heq1 =>
              have hev₁ : evalFormula A' F₁ = true :=
                evalFormula_append_left (ih h)
              refine unit_propagate_sound hU A' hev₁ ?_
              intro w hw
              rw [(dpll_some h).2 w (branch_var_not_mem hvF₁ hw _ rfl),
                (dpll_some heq1).2 w (branch_var_not_mem hvF₁ hw _ rfl)]


theorem branch_card {F : Formula} {v : Nat} (hv : v ∈ idxsList F) (l : Literal)
    (hl : litVar l = v) :
    (idxsList (F ++ [[l]])).toFinset.card = (idxsList F).toFinset.card := by
  rw [idxsList_branch, hl, List.toFinset_append]
  congr 1
  rw [Finset.union_eq_left]
  intro w hw
  simp at hw
  subst hw
  exact List.mem_toFinset.mpr hv

theorem branch_has_unit (F : Formula) (l : Literal) :
    (F ++ [[l]]).find? (fun cl => cl.length == 1) ≠ none := by
  rw [Ne, List.find?_eq_none]
  push_neg
  exact ⟨[l], by simp, by simp⟩

theorem up_no_unit {F : Formula} {A : Assignment} {fuel : Nat}
    (h : F.find? (fun cl => cl.length == 1) = none) :
    unit_propagate (fuel + 1) F A = some (F, A) := by
  rw [unit_propagate]
  simp [h]

theorem dpll_total : ∀ {fuel : Nat} {F : Formula} {A : Assignment},
    (∀ i ∈ idxsList F, i < A.length) →
    2 * (idxsList F).toFinset.card +
      (if F.find? (fun cl => cl.length == 1) = none then 1 else 0) < fuel →
    ∃ b A', dpll fuel F A = some (b, A') := by
  intro fuel
  induction fuel with
  | zero => intro F A _ hm; omega
  | succ fuel ih =>
    intro F A hidx hm
    obtain ⟨F₁, A₁, hU⟩ := @unit_propagate_total (F.length + 1) F A hidx (by omega)
    obtain ⟨hsub, hlen, hnounit, hagree, hnil⟩ := unit_propagate_some hU
    rw [dpll]
    cases hE : F₁.isEmpty with
    | true => exact ⟨true, A₁, by simp [hU, hE]⟩
    | false =>
      cases hAny : F₁.any (fun cl => cl.isEmpty) with
      | true => exact ⟨false, A₁, by simp [hU, hE, hAny]⟩
      | false =>
        have hidx₁ : ∀ i ∈ idxsList F₁, i < A₁.length := fun i hi => by
          rw [hlen]; exact hidx i (hsub i hi)
        obtain ⟨v, heqv⟩ := find_dominant_variable_total hidx₁
        have hvF₁ : v ∈ idxsList F₁ :=
          (find_dominant_variable_some heqv).2.2.2.2
            (idxsList_ne_nil (by simp [hE]) (by simp [hAny]))
        have hsubT : (idxsList F₁).toFinset.card ≤ (idxsList F).toFinset.card :=
          Finset.card_le_card (fun w hw =>
            List.mem_toFinset.mpr (hsub w (List.mem_toFinset.mp hw)))
        have hmeasure₁ : 2 * (idxsList F₁).toFinset.card < fuel := by
          rcases hUF : F.find? (fun cl => cl.length == 1) with _ | cl
          · have hFF : F₁ = F := by
              have := @up_no_unit F A F.length hUF
              rw [this] at hU
              simp only [Option.some.injEq, Prod.mk.injEq] at hU
              exact hU.1.symm
            rw [if_pos hUF] at hm
            rw [hFF]
            omega
          · have hclt := unit_propagate_card_lt (by rw [hUF]; simp) hU
            rw [if_neg (by rw [hUF]; simp)] at hm
            omega
        have hm1 : 2 * (idxsList (F₁ ++ [[Literal.Var v]])).toFinset.card +
            (if (F₁ ++ [[Literal.Var v]]).find? (fun cl => cl.length == 1) = none
              then 1 else 0) < fuel := by
          rw [if_neg (branch_has_unit F₁ (Literal.Var v)), branch_card hvF₁ (Literal.Var v) rfl]
          omega
        have hidxc1 : ∀ i ∈ idxsList (F₁ ++ [[Literal.Var v]]), i < A₁.length := by
          intro i hi
          rw [idxsList_branch] at hi
          rcases List.mem_append.mp hi with hi | hi
          · exact hidx₁ i hi
          · simp at hi
            subst hi
            exact hidx₁ _ hvF₁
        obtain ⟨b₂, A₂, hc1⟩ := ih hidxc1 hm1
        cases b₂ with
        | true => exact ⟨true, A₂, by simp [hU, hE, hAny, heqv, hc1]⟩
        | false =>
          have hlen₂ : A₂.length = A₁.length := (dpll_some hc1).1
          have hm2 : 2 * (idxsList (F₁ ++ [[Literal.Not v]])).toFinset.card +
              (if (F₁ ++ [[Literal.Not v]]).find? (fun cl => cl.length == 1) = none
                then 1 else 0) < fuel := by
            rw [if_neg (branch_has_unit F₁ (Literal.Not v)), branch_card hvF₁ (Literal.Not v) rfl]
            omega
          have hidxc2 : ∀ i ∈ idxsList (F₁ ++ [[Literal.Not v]]), i < A₂.length := by
            intro i hi
            rw [hlen₂]
            rw [idxsList_branch] at hi
            rcases List.mem_append.mp hi with hi | hi
            · exact hidx₁ i hi
            · simp at hi
              subst hi
              exact hidx₁ _ hvF₁
          obtain ⟨b₃, A₃, hc2⟩ := ih hidxc2 hm2
          exact ⟨b₃, A₃, by simp [hU, hE, hAny, heqv, hc1, hc2]⟩



theorem card_le_of_idx_lt {F : Formula} {n : Nat} (h : ∀ i ∈ idxsList F, i < n) :
    (idxsList F).toFinset.card ≤ n := by
  have hsub : (idxsList F).toFinset ⊆ Finset.range n := by
    intro w hw
    rw [Finset.mem_range]
    exact h w (List.mem_toFinset.mp hw)
  calc (idxsList F).toFinset.card ≤ (Finset.range n).card := Finset.card_le_card hsub
    _ = n := Finset.card_range n

theorem dpll_total_buffer {F : Formula} {A : Assignment}
    (hidx : ∀ i ∈ idxsList F, i < A.length) :
    ∃ b A', dpll (2 * A.length + 2) F A = some (b, A') := by
  refine dpll_total hidx ?_
  have := card_le_of_idx_lt hidx
  split <;> omega

theorem check_sat_run (F : Formula) :
    ∃ b A', dpll (2 * n_vars F + 2) F (List.replicate (n_vars F) false) = some (b, A') ∧
      check_sat F = some (if b then some A' else none) := by
  have hidx : ∀ i ∈ idxsList F, i < (List.replicate (n_vars F) false).length := by
    simpa using n_vars_spec F
  obtain ⟨b, A', hd⟩ := dpll_total_buffer hidx
  rw [List.length_replicate] at hd
  refine ⟨b, A', hd, ?_⟩
  have hcs : check_sat F =
      match dpll (2 * n_vars F + 2) F (List.replicate (n_vars F) false) with
      | none => none
      | some (true, vars) => some (some vars)
      | some (false, _) => some none := rfl
  rw [hcs, hd]
  cases b <;> rfl


theorem canonSet_eq_map (G : Formula) :
    canonSet G = Multiset.map Multiset.toFinset (canon G) := by
  rw [canonSet, canon, Multiset.map_coe, List.map_map]
  rfl

theorem specSimplify_add (v : Nat) (t : Bool) (M N : Multiset (Multiset Literal)) :
    specSimplify v t (M + N) = specSimplify v t M + specSimplify v t N := by
  rw [specSimplify, specSimplify, specSimplify, Multiset.filter_add, Multiset.map_add]

theorem specSimplify_cons_mem {v : Nat} {t : Bool} {c : Multiset Literal}
    (h : truthyLit v t ∈ c) (N : Multiset (Multiset Literal)) :
    specSimplify v t (c ::ₘ N) = specSimplify v t N := by
  rw [specSimplify,
    Multiset.filter_cons_of_neg (p := fun cl => truthyLit v t ∉ cl) _ (not_not_intro h)]
  rfl

theorem specSimplify_cons_not_mem {v : Nat} {t : Bool} {c : Multiset Literal}
    (h : truthyLit v t ∉ c) (N : Multiset (Multiset Literal)) :
    specSimplify v t (c ::ₘ N) =
      Multiset.filter (fun l => l ≠ falseyLit v t) c ::ₘ specSimplify v t N := by
  rw [specSimplify,
    Multiset.filter_cons_of_pos (p := fun cl => truthyLit v t ∉ cl) _ h, Multiset.map_cons]
  rfl

theorem toFinset_filter_dedup (cl : Clause) (f : Literal) :
    (Multiset.filter (fun l => l ≠ f) (Multiset.ofList cl)).toFinset =
      (Multiset.filter (fun l => l ≠ f) (Multiset.ofList cl.dedup)).toFinset := by
  rw [Multiset.toFinset_filter, Multiset.toFinset_filter]
  congr 1
  apply Finset.ext
  intro w
  constructor <;> intro hw
  · have : w ∈ cl := List.mem_toFinset.mp hw
    exact List.mem_toFinset.mpr (List.mem_dedup.mpr this)
  · have : w ∈ cl.dedup := List.mem_toFinset.mp hw
    exact List.mem_toFinset.mpr (List.mem_dedup.mp this)

theorem check_sat_sound {F : Formula} {A : Assignment}
    (h : check_sat F = some (some A)) : evalFormula A F = true := by
  obtain ⟨b, A', hd, hcs⟩ := check_sat_run F
  rw [hcs] at h
  cases b with
  | true =>
    simp only [if_true, Option.some.injEq] at h
    rw [← h]
    exact dpll_sound hd
  | false => simp at h



theorem simplify_dedup_confluent (P S : Formula) (cl : Clause) (v : Nat) (t : Bool) :
    canonSet (simplify (P ++ cl :: S) v t) = canonSet (simplify (P ++ cl.dedup :: S) v t) := by
  rw [canonSet_eq_map, canonSet_eq_map, simplify_canon, simplify_canon,
    canon_append, canon_append, canon_cons, canon_cons,
    specSimplify_add, specSimplify_add]
  by_cases hmem : truthyLit v t ∈ cl
  · rw [specSimplify_cons_mem (Multiset.mem_coe.mpr hmem),
      specSimplify_cons_mem (Multiset.mem_coe.mpr (List.mem_dedup.mpr hmem))]
  · rw [specSimplify_cons_not_mem (fun hc => hmem (Multiset.mem_coe.mp hc)),
      specSimplify_cons_not_mem
        (fun hc => hmem (List.mem_dedup.mp (Multiset.mem_coe.mp hc))),
      Multiset.map_add, Multiset.map_add, Multiset.map_cons, Multiset.map_cons,
      toFinset_filter_dedup cl (falseyLit v t)]



/-- C1: Soundness of the solver: for every CNF formula `F`, if `check_sat F`
returns an assignment `A`, then `A` makes every clause of `F` true (each
clause contains a literal whose entry in `A` matches its polarity). -/
theorem claim_C1 (F : Formula) (A : Assignment) (h : check_sat F = some (some A)) :
    evalFormula A F = true :=
  check_sat_sound h

theorem claim_C1_witness :
    evalFormula [false, true]
      [[Literal.Var 0, Literal.Var 0, Literal.Var 1],
        [Literal.Not 0, Literal.Not 1, Literal.Not 1],
        [Literal.Not 0, Literal.Var 1, Literal.Var 1]] = true :=
  claim_C1 _ _ (by decide)

/-- C2: A formula containing an empty clause is decided unsatisfiable:
`check_sat` returns the `none` verdict, whatever the other clauses are. -/
theorem claim_C2 (F : Formula) (h : ([] : Clause) ∈ F) : check_sat F = some none := by
  obtain ⟨b, A', hd, hcs⟩ := check_sat_run F
  cases b with
  | true =>
    exfalso
    have hev := dpll_sound hd
    rw [evalFormula, List.all_eq_true] at hev
    have hcl := hev [] h
    simp [evalClause] at hcl
  | false => simpa using hcs

theorem claim_C2_witness : check_sat [[]] = some none :=
  claim_C2 [[]] (by decide)

/-- C3: Termination of the search: for every formula and every assignment
buffer covering all variable indices of the formula, `dpll` (run with the
fuel `check_sat` supplies) terminates with a result, never exhausting its
fuel; consequently `check_sat` always returns a verdict. -/
theorem claim_C3 :
    (∀ (F : Formula) (A : Assignment), (∀ i ∈ idxsList F, i < A.length) →
      ∃ b A', dpll (2 * A.length + 2) F A = some (b, A')) ∧
    (∀ F : Formula, ∃ r, check_sat F = some r) := by
  constructor
  · exact fun F A h => dpll_total_buffer h
  · intro F
    obtain ⟨b, A', hd, hcs⟩ := check_sat_run F
    exact ⟨_, hcs⟩

theorem claim_C3_witness :
    ∃ b A', dpll (2 * List.length [false] + 2) [[Literal.Var 0]] [false] = some (b, A') :=
  claim_C3.1 [[Literal.Var 0]] [false] (by decide)

/-- C4: Simplifier postcondition: `simplify F v t`, viewed as a multiset of
clauses-as-multisets, equals `F` with every clause containing the now-true
literal removed and every occurrence of the now-false literal stripped. -/
theorem claim_C4 (F : Formula) (v : Nat) (t : Bool) :
    canon (simplify F v t) = specSimplify v t (canon F) :=
  simplify_canon F v t

/-- C5: Unit propagation on `[[+1], [-2], [+1,+2], [-1,+2,+3], [+0,-3,+4]]`
with an all-false assignment of size 5 leaves exactly `[[+0,+4]]` and sets
variables 1, 2, 3 to true, false, true; moreover after `unit_propagate`
returns successfully no clause of length exactly 1 remains. -/
theorem claim_C5 :
    unit_propagate 6
        [[Literal.Var 1], [Literal.Not 2], [Literal.Var 1, Literal.Var 2],
          [Literal.Not 1, Literal.Var 2, Literal.Var 3],
          [Literal.Var 0, Literal.Not 3, Literal.Var 4]]
        (List.replicate 5 false) =
      some ([[Literal.Var 0, Literal.Var 4]], [false, true, false, true, false]) ∧
    ∀ (fuel : Nat) (F : Formula) (A : Assignment) (F' : Formula) (A' : Assignment),
      unit_propagate fuel F A = some (F', A') →
        F'.find? (fun cl => cl.length == 1) = none :=
  ⟨by decide, fun _ _ _ _ _ h => (unit_propagate_some h).2.2.1⟩

theorem claim_C5_witness :
    ([[Literal.Var 0, Literal.Var 4]] : Formula).find? (fun cl => cl.length == 1) = none :=
  claim_C5.2 6
    [[Literal.Var 1], [Literal.Not 2], [Literal.Var 1, Literal.Var 2],
      [Literal.Not 1, Literal.Var 2, Literal.Var 3],
      [Literal.Var 0, Literal.Not 3, Literal.Var 4]]
    (List.replicate 5 false)
    [[Literal.Var 0, Literal.Var 4]] [false, true, false, true, false] (by decide)

/-- C6: Branch selector: `find_dominant_variable` returns the variable whose
occurrence count over all literals is maximal, ties broken by the lowest
index (strict `>` scan), index 0 when all counts are zero; on the concrete
formula from the spec with 3 variables it returns 1. -/
theorem claim_C6 :
    (∀ (F : Formula) (n : Nat), (∀ i ∈ idxsList F, i < n) →
      ∃ v, find_dominant_variable F n = some v ∧
        (∀ w, (idxsList F).count w ≤ (idxsList F).count v) ∧
        (∀ w, w < v → (idxsList F).count w < (idxsList F).count v) ∧
        ((∀ w, (idxsList F).count w = 0) → v = 0)) ∧
    find_dominant_variable
      [[Literal.Var 0, Literal.Var 1, Literal.Var 2], [Literal.Not 0, Literal.Var 1],
        [Literal.Not 1, Literal.Var 2], [Literal.Var 0, Literal.Not 1, Literal.Not 2]] 3 =
      some 1 := by
  constructor
  · intro F n h
    obtain ⟨v, hv⟩ := find_dominant_variable_total h
    obtain ⟨-, hmax, htie, -, -⟩ := find_dominant_variable_some hv
    refine ⟨v, hv, hmax, htie, ?_⟩
    intro hz
    by_contra hvne
    have h0 : 0 < v := Nat.pos_of_ne_zero hvne
    have hlt := htie 0 h0
    rw [hz 0, hz v] at hlt
    omega
  · decide

theorem claim_C6_witness :
    ∃ v, find_dominant_variable [[Literal.Var 0]] 1 = some v ∧
      (∀ w, (idxsList [[Literal.Var 0]]).count w ≤ (idxsList [[Literal.Var 0]]).count v) ∧
      (∀ w, w < v →
        (idxsList [[Literal.Var 0]]).count w < (idxsList [[Literal.Var 0]]).count v) ∧
      ((∀ w, (idxsList [[Literal.Var 0]]).count w = 0) → v = 0) :=
  claim_C6.1 [[Literal.Var 0]] 1 (by decide)

/-- C7: The empty formula is satisfiable with the empty assignment: the
computed variable count is 0 and `check_sat []` returns `some []`. -/
theorem claim_C7 : check_sat [] = some (some []) ∧ n_vars [] = 0 :=
  ⟨rfl, rfl⟩

/-- C8: Duplicate-literal confluence: simplifying a formula holding a clause
with duplicate literals behaves identically (same clauses as literal sets,
with the same multiplicities) to simplifying the formula in which that
clause has been deduplicated. -/
theorem claim_C8 (P S : Formula) (cl : Clause) (v : Nat) (t : Bool)
    (_hdup : ¬cl.Nodup) :
    canonSet (simplify (P ++ cl :: S) v t) =
      canonSet (simplify (P ++ cl.dedup :: S) v t) :=
  simplify_dedup_confluent P S cl v t

theorem claim_C8_witness :
    canonSet (simplify ([] ++ [Literal.Var 0, Literal.Var 0] :: []) 0 true) =
      canonSet (simplify ([] ++ [Literal.Var 0, Literal.Var 0].dedup :: []) 0 true) :=
  claim_C8 [] [] [Literal.Var 0, Literal.Var 0] 0 true (by decide)

/-- C9: Determinism: two runs of `check_sat` on the same unchanged formula
return equal results, in particular the same satisfiability verdict. -/
theorem claim_C9 (F : Formula) (r₁ r₂ : Option (Option Assignment))
    (h₁ : check_sat F = r₁) (h₂ : check_sat F = r₂) : r₁ = r₂ := by
  rw [← h₁, ← h₂]

theorem claim_C9_witness :
    (some (some ([] : Assignment)) : Option (Option Assignment)) = some (some []) :=
  claim_C9 [] _ _ rfl rfl

/-- C10: Index safety: with all literal indices below the buffer length, the
unguarded index accesses of the core are in bounds — `unit_propagate` and
`dpll` never hit their error branches, and `find_dominant_variable` succeeds
returning an index below `n` whenever `n > 0`. -/
theorem claim_C10 :
    (∀ (F : Formula) (A : Assignment), (∀ i ∈ idxsList F, i < A.length) →
      ∃ p, unit_propagate (F.length + 1) F A = some p) ∧
    (∀ (F : Formula) (n : Nat), (∀ i ∈ idxsList F, i < n) →
      ∃ v, find_dominant_variable F n = some v ∧ (0 < n → v < n)) ∧
    (∀ (F : Formula) (A : Assignment), (∀ i ∈ idxsList F, i < A.length) →
      ∃ r, dpll (2 * A.length + 2) F A = some r) := by
  refine ⟨?_, ?_, ?_⟩
  · intro F A h
    obtain ⟨F', A', hU⟩ := @unit_propagate_total (F.length + 1) F A h (by omega)
    exact ⟨(F', A'), hU⟩
  · intro F n h
    obtain ⟨v, hv⟩ := find_dominant_variable_total h
    exact ⟨v, hv, (find_dominant_variable_some hv).2.2.2.1⟩
  · intro F A h
    obtain ⟨b, A', hd⟩ := dpll_total_buffer h
    exact ⟨(b, A'), hd⟩

theorem claim_C10_witness :
    ∃ p, unit_propagate (List.length [[Literal.Var 0]] + 1) [[Literal.Var 0]] [false] =
      some p :=
  claim_C10.1 [[Literal.Var 0]] [false] (by decide)

end DpllSat
